import Mathlib

/-!
Verification development for the call-counter instrumentation runtime
(`callcounter.cpp`).

The runtime keeps, per thread, an `std::unordered_map<void*, unsigned long>`
from function entry address to call count.  The instrumentation entry hook
`__cyg_profile_func_enter(func, caller)` executes `thread_call_map.map[func]++`;
at thread teardown the destructor `~ThreadCallMap` flushes the non-empty map
to a shared output file under a process-wide mutex; the process constructor
`cc_constructor` selects the output path (environment override `CC_OUTFILE`
or the default `"callcounter.raw"`) and truncates the file.

We embed this shallowly:
* `void*` keys (function identities) become `Nat`; the null pointer is `0`.
* `unsigned long` counts become `Nat` reduced modulo `2 ^ 64` (LP64 width),
  written out explicitly wherever the C++ `++` can overflow.
* the hash map becomes an association list with unique keys (iteration
  order of `unordered_map` is unspecified; the list order stands for one
  such order).
* the file system becomes `String → List String` (path to list of lines),
  and the success or failure of `fopen` becomes an explicit `Bool` input.
* the racing teardown of two threads becomes a small labelled transition
  system in which bytes are appended one at a time and the process-wide
  mutex is an explicit lock cell.
-/

/-- Width modulus of the C++ `unsigned long` counter (LP64: 64 bits). -/
def ULONG_MOD : Nat := 2 ^ 64

/-- The per-thread accumulator `std::unordered_map<void*, unsigned long>`,
as an association list from function identity to count. -/
abbrev CallTally : Type := List (Nat × Nat)

/-- Lookup in the accumulator: `some v` when the key is present with count
`v`, `none` when absent. -/
def tallyGet : CallTally → Nat → Option Nat
  | [], _ => none
  | (k', v) :: rest, k => if k' = k then some v else tallyGet rest k

/-- `thread_call_map.map[func]++`: `operator[]` inserts the key with the
default value `0` when absent, then the count is incremented by one in
`unsigned long` arithmetic (hence the explicit modulus). -/
def bump : CallTally → Nat → CallTally
  | [], k => [(k, (0 + 1) % ULONG_MOD)]
  | (k', v) :: rest, k =>
    if k' = k then (k', (v + 1) % ULONG_MOD) :: rest
    else (k', v) :: bump rest k

/-- `__cyg_profile_func_enter(func, caller)`: bumps the callee's count in
the calling thread's accumulator; the `caller` argument is not used. -/
def funcEnter (func _caller : Nat) (m : CallTally) : CallTally :=
  bump m func

/-- A sequence of entry-hook invocations, each given as
(callee identity, caller identity), run left to right on one thread. -/
def runHooks (calls : List (Nat × Nat)) (m : CallTally) : CallTally :=
  calls.foldl (fun acc c => funcEnter c.1 c.2 acc) m

theorem tallyGet_bump_self (m : CallTally) (k : Nat) :
    tallyGet (bump m k) k = some (((tallyGet m k).getD 0 + 1) % ULONG_MOD) := by
  induction m with
  | nil => simp [bump, tallyGet]
  | cons e rest ih =>
    obtain ⟨k', v⟩ := e
    by_cases h : k' = k
    · simp [bump, tallyGet, h]
    · simp [bump, tallyGet, h, ih]

theorem tallyGet_bump_other (m : CallTally) (k k' : Nat) (h : k' ≠ k) :
    tallyGet (bump m k') k = tallyGet m k := by
  induction m with
  | nil => simp [bump, tallyGet, h]
  | cons e rest ih =>
    obtain ⟨k'', v⟩ := e
    by_cases h2 : k'' = k'
    · subst h2
      simp [bump, tallyGet, h]
    · by_cases h3 : k'' = k
      · simp [bump, tallyGet, h2, h3, Ne.symm h]
      · simp [bump, tallyGet, h2, h3, ih]

/-- Number of hook invocations in `calls` whose callee is `k`: the
occurrence count of the identity `k` in the invocation sequence. -/
def calleeCount : List (Nat × Nat) → Nat → Nat
  | [], _ => 0
  | c :: rest, k => (if c.1 = k then 1 else 0) + calleeCount rest k

theorem calleeCount_eq_count (calls : List (Nat × Nat)) (k : Nat) :
    calleeCount calls k = (calls.map Prod.fst).count k := by
  induction calls with
  | nil => rfl
  | cons c rest ih =>
    by_cases h : c.1 = k
    · simp [calleeCount, h, ih, List.count_cons]
      omega
    · simp [calleeCount, h, ih, List.count_cons, Ne.symm h]

theorem tallyGet_runHooks (calls : List (Nat × Nat)) (m : CallTally) (k : Nat) :
    tallyGet (runHooks calls m) k =
      if calleeCount calls k = 0 then tallyGet m k
      else some (((tallyGet m k).getD 0 + calleeCount calls k) % ULONG_MOD) := by
  induction calls generalizing m with
  | nil => simp [runHooks, calleeCount]
  | cons c rest ih =>
    obtain ⟨f, cr⟩ := c
    have hrun : runHooks ((f, cr) :: rest) m = runHooks rest (bump m f) := rfl
    have hcc : calleeCount ((f, cr) :: rest) k
        = (if f = k then 1 else 0) + calleeCount rest k := rfl
    rw [hrun, ih (bump m f), hcc]
    by_cases hf : f = k
    · subst hf
      have h2 : (if f = f then 1 else 0) = 1 := if_pos rfl
      rw [h2, tallyGet_bump_self]
      by_cases hz : calleeCount rest f = 0
      · simp [hz]
      · have h1 : ¬(1 + calleeCount rest f = 0) := by omega
        rw [if_neg hz, if_neg h1, Option.getD_some, Nat.mod_add_mod, Nat.add_assoc]
    · rw [if_neg hf, tallyGet_bump_other m k f hf]
      simp

theorem mem_keys_bump (m : CallTally) (k x : Nat)
    (h : x ∈ (bump m k).map Prod.fst) : x ∈ m.map Prod.fst ∨ x = k := by
  induction m with
  | nil =>
    simp [bump] at h
    exact Or.inr h
  | cons e rest ih =>
    obtain ⟨k', v⟩ := e
    by_cases h2 : k' = k
    · have hb : bump ((k', v) :: rest) k = (k', (v + 1) % ULONG_MOD) :: rest := by
        simp [bump, h2]
      rw [hb, List.map_cons, List.mem_cons] at h
      rcases h with h | h
      · exact Or.inl (by rw [List.map_cons, List.mem_cons]; exact Or.inl h)
      · exact Or.inl (by rw [List.map_cons, List.mem_cons]; exact Or.inr h)
    · have hb : bump ((k', v) :: rest) k = (k', v) :: bump rest k := by
        simp [bump, h2]
      rw [hb, List.map_cons, List.mem_cons] at h
      rcases h with h | h
      · exact Or.inl (by rw [List.map_cons, List.mem_cons]; exact Or.inl h)
      · rcases ih h with h3 | h3
        · exact Or.inl (by rw [List.map_cons, List.mem_cons]; exact Or.inr h3)
        · exact Or.inr h3

theorem keys_nodup_bump (m : CallTally) (k : Nat)
    (h : (m.map Prod.fst).Nodup) : ((bump m k).map Prod.fst).Nodup := by
  induction m with
  | nil => simp [bump]
  | cons e rest ih =>
    obtain ⟨k', v⟩ := e
    simp only [List.map_cons, List.nodup_cons] at h
    by_cases h2 : k' = k
    · simp only [bump, if_pos h2, List.map_cons, List.nodup_cons]
      exact ⟨h.1, h.2⟩
    · simp only [bump, if_neg h2, List.map_cons, List.nodup_cons]
      refine ⟨fun hmem => ?_, ih h.2⟩
      rcases mem_keys_bump rest k k' hmem with h3 | h3
      · exact h.1 h3
      · exact h2 h3

theorem keys_nodup_runHooks (calls : List (Nat × Nat)) (m : CallTally)
    (h : (m.map Prod.fst).Nodup) : ((runHooks calls m).map Prod.fst).Nodup := by
  induction calls generalizing m with
  | nil => exact h
  | cons c rest ih =>
    exact ih (bump m c.1) (keys_nodup_bump m c.1 h)

/-!
## The teardown path: `~ThreadCallMap`

The destructor returns immediately when the map is empty; otherwise it takes
the process-wide mutex, opens `outfile` for append, and — when the open
succeeds — writes one `fprintf(f, "%p %lu %zu\n", key, value, tid_num)` line
per map entry, then closes the file.  Sequentially (one thread), we model the
output file as its list of lines and make the success of `fopen` an explicit
input; the returned `Bool` records whether `fopen` was invoked at all.
-/

/-- `%p`: pointer formatting, `0x` followed by lowercase hex digits. -/
def formatPtr (k : Nat) : String :=
  "0x" ++ (Nat.toDigits 16 k).asString

/-- One output record, `fprintf(f, "%p %lu %zu\n", key, value, tid_num)`
without the trailing newline: `<function_identity> <call_count> <thread_tag>`. -/
def recordLine (key value tidNum : Nat) : String :=
  formatPtr key ++ " " ++ toString value ++ " " ++ toString tidNum

/-- The lines one thread's flush emits: one `recordLine` per accumulator
entry, all carrying the same thread tag. -/
def recordsOf (tidNum : Nat) (m : CallTally) : List String :=
  m.map fun e => recordLine e.1 e.2 tidNum

/-- The destructor `~ThreadCallMap`, sequentially.  `openOk` tells whether
`fopen(outfile, "a")` would succeed; `file` is the current content (lines) of
the output file.  Returns the new content and whether `fopen` was called. -/
def drain (openOk : Bool) (tidNum : Nat) (m : CallTally) (file : List String) :
    List String × Bool :=
  if m.isEmpty then (file, false)
  else if openOk then (file ++ recordsOf tidNum m, true)
  else (file, true)

/-- A whole thread lifetime: run the hook sequence on a fresh accumulator,
then tear down.  Returns the final accumulator, the final file content, and
whether the teardown called `fopen`. -/
def threadLife (openOk : Bool) (tidNum : Nat) (calls : List (Nat × Nat))
    (file : List String) : CallTally × List String × Bool :=
  let m := runHooks calls []
  (m, drain openOk tidNum m file)

/-!
## Process start: `cc_constructor`

`cc_constructor` reads `CC_OUTFILE`; when set, it replaces the default path
`"callcounter.raw"`.  It then opens the selected path with mode `"w"`
(truncate) and closes it immediately when the open succeeded; when the open
fails it does nothing further.  We model the file system as a map from path
to list of lines.
-/

/-- The initial value of the `outfile` global. -/
def defaultOutfile : String := "callcounter.raw"

/-- `cc_constructor`: `env` is the value of `getenv("CC_OUTFILE")`
(`none` when unset), `truncOk` whether `fopen(outfile, "w")` succeeds.
Returns the selected output path (the `outfile` global afterwards) and the
new file system. -/
def cc_constructor (env : Option String) (truncOk : Bool)
    (fs : String → List String) : String × (String → List String) :=
  let out := match env with
    | some e => e
    | none => defaultOutfile
  if truncOk then (out, fun p => if p = out then [] else fs p)
  else (out, fs)

/-- A minimal whole-process run on one thread: the constructor selects the
path and truncates, the thread runs its hook sequence and tears down; the
teardown appends to the path the constructor selected (the `outfile`
global), touching no other path. -/
def processRun (env : Option String) (truncOk appendOk : Bool) (tidNum : Nat)
    (calls : List (Nat × Nat)) (fs : String → List String) :
    String × (String → List String) :=
  let r := cc_constructor env truncOk fs
  let m := runHooks calls []
  let d := drain appendOk tidNum m (r.2 r.1)
  (r.1, fun p => if p = r.1 then d.1 else r.2 p)

/-!
## Racing teardown of two threads

`~ThreadCallMap` runs concurrently in two exiting threads A and B.  Each
non-empty flush performs: `lock_guard` acquisition of `file_mutex`, the
`fprintf` byte output of its records, and the release of the mutex.  We model
the race as an interleaving transition system: the shared state holds the
mutex owner and the bytes of the output file; each thread still has a list of
pending atomic actions.  Appending a byte does *not* consult the mutex (an
`fprintf` never checks it): mutual exclusion comes only from the structure of
the flush program, which writes exclusively between its acquire and its
release.  `fopen`/`fclose` do not write and are absorbed.
-/

/-- An atomic action of a flushing thread: take the process-wide
`file_mutex`, append one byte of `fprintf` output to the shared file, or
release the mutex. -/
inductive Act : Type
  | acquire : Act
  | wr : Char → Act
  | rel : Act

/-- Shared state of the race: the owner of `file_mutex` (`none` when free,
`false` for thread A, `true` for thread B), the bytes of the output file,
and the pending actions of each thread. -/
structure Sys : Type where
  lock : Option Bool
  file : List Char
  pa : List Act
  pb : List Act

/-- One interleaving step of the two-thread race. -/
inductive Step : Sys → Sys → Prop
  | acqA (f : List Char) (pa pb : List Act) :
      Step ⟨none, f, .acquire :: pa, pb⟩ ⟨some false, f, pa, pb⟩
  | wrA (l : Option Bool) (f : List Char) (c : Char) (pa pb : List Act) :
      Step ⟨l, f, .wr c :: pa, pb⟩ ⟨l, f ++ [c], pa, pb⟩
  | relA (f : List Char) (pa pb : List Act) :
      Step ⟨some false, f, .rel :: pa, pb⟩ ⟨none, f, pa, pb⟩
  | acqB (f : List Char) (pa pb : List Act) :
      Step ⟨none, f, pa, .acquire :: pb⟩ ⟨some true, f, pa, pb⟩
  | wrB (l : Option Bool) (f : List Char) (c : Char) (pa pb : List Act) :
      Step ⟨l, f, pa, .wr c :: pb⟩ ⟨l, f ++ [c], pa, pb⟩
  | relB (f : List Char) (pa pb : List Act) :
      Step ⟨some true, f, pa, .rel :: pb⟩ ⟨none, f, pa, pb⟩

/-- Reflexive-transitive closure of `Step`: all interleavings. -/
inductive Reach : Sys → Sys → Prop
  | refl (s : Sys) : Reach s s
  | tail {s t u : Sys} : Reach s t → Step t u → Reach s u

/-- The byte stream `fprintf` produces for a list of records: each record's
characters followed by the newline of `"%p %lu %zu\n"`. -/
def serializeChars : List String → List Char
  | [] => []
  | r :: rs => r.data ++ '\n' :: serializeChars rs

theorem serializeChars_append (a b : List String) :
    serializeChars (a ++ b) = serializeChars a ++ serializeChars b := by
  induction a with
  | nil => rfl
  | cons r rs ih => simp [serializeChars, ih]

/-- The action sequence of one locked flush of byte string `cs`: acquire
`file_mutex`, write the bytes, release. -/
def flushProg (cs : List Char) : List Act :=
  Act.acquire :: (cs.map Act.wr ++ [Act.rel])

/-- The action sequence of `~ThreadCallMap` for a thread with tag `tid`,
accumulator `m`, and append-`fopen` outcome `openOk`: nothing when the map
is empty; a locked no-op when the sink fails to open; otherwise a locked
flush of the thread's records. -/
def drainProg (openOk : Bool) (tid : Nat) (m : CallTally) : List Act :=
  if m.isEmpty then []
  else if openOk then flushProg (serializeChars (recordsOf tid m))
  else [Act.acquire, Act.rel]

/-- Inductive invariant for two racing flushes `flushProg ca` (thread A) and
`flushProg cb` (thread B) from file content `init`: because writes happen
only between an acquire and the matching release, the flushes serialize, and
the file is always `init` followed by zero, one, or two complete byte blocks
plus at most one growing prefix of the block of the lock holder. -/
inductive RaceInv (init ca cb : List Char) : Sys → Prop
  | start : RaceInv init ca cb ⟨none, init, flushProg ca, flushProg cb⟩
  | aWrites (d r : List Char) (h : ca = d ++ r) :
      RaceInv init ca cb ⟨some false, init ++ d, r.map Act.wr ++ [Act.rel], flushProg cb⟩
  | aDone : RaceInv init ca cb ⟨none, init ++ ca, [], flushProg cb⟩
  | bAfterA (d r : List Char) (h : cb = d ++ r) :
      RaceInv init ca cb ⟨some true, init ++ ca ++ d, [], r.map Act.wr ++ [Act.rel]⟩
  | abDone : RaceInv init ca cb ⟨none, init ++ ca ++ cb, [], []⟩
  | bWrites (d r : List Char) (h : cb = d ++ r) :
      RaceInv init ca cb ⟨some true, init ++ d, flushProg ca, r.map Act.wr ++ [Act.rel]⟩
  | bDone : RaceInv init ca cb ⟨none, init ++ cb, flushProg ca, []⟩
  | aAfterB (d r : List Char) (h : ca = d ++ r) :
      RaceInv init ca cb ⟨some false, init ++ cb ++ d, r.map Act.wr ++ [Act.rel], []⟩
  | baDone : RaceInv init ca cb ⟨none, init ++ cb ++ ca, [], []⟩

theorem raceInv_cast {init ca cb : List Char} {s t : Sys}
    (h : RaceInv init ca cb s) (he : s = t) : RaceInv init ca cb t := he ▸ h

theorem raceInv_step (init ca cb : List Char) (s t : Sys)
    (hInv : RaceInv init ca cb s) (hstep : Step s t) : RaceInv init ca cb t := by
  cases hInv with
  | start =>
    simp only [flushProg] at hstep
    cases hstep with
    | acqA => exact raceInv_cast (RaceInv.aWrites [] ca (by simp)) (by simp [flushProg])
    | acqB => exact raceInv_cast (RaceInv.bWrites [] cb (by simp)) (by simp [flushProg])
  | aWrites d r h =>
    cases r with
    | nil =>
      simp only [flushProg, List.map_nil, List.nil_append] at hstep
      cases hstep with
      | relA => exact raceInv_cast RaceInv.aDone (by simp [flushProg, h])
    | cons c r2 =>
      simp only [flushProg, List.map_cons, List.cons_append] at hstep
      cases hstep with
      | wrA =>
        exact raceInv_cast (RaceInv.aWrites (d ++ [c]) r2 (by simp [h]))
          (by simp [flushProg])
  | aDone =>
    simp only [flushProg] at hstep
    cases hstep with
    | acqB => exact raceInv_cast (RaceInv.bAfterA [] cb (by simp)) (by simp [flushProg])
  | bAfterA d r h =>
    cases r with
    | nil =>
      simp only [List.map_nil, List.nil_append] at hstep
      cases hstep with
      | relB => exact raceInv_cast RaceInv.abDone (by simp [h])
    | cons c r2 =>
      simp only [List.map_cons, List.cons_append] at hstep
      cases hstep with
      | wrB =>
        exact raceInv_cast (RaceInv.bAfterA (d ++ [c]) r2 (by simp [h])) (by simp)
  | abDone => cases hstep
  | bWrites d r h =>
    cases r with
    | nil =>
      simp only [flushProg, List.map_nil, List.nil_append] at hstep
      cases hstep with
      | relB => exact raceInv_cast RaceInv.bDone (by simp [flushProg, h])
    | cons c r2 =>
      simp only [flushProg, List.map_cons, List.cons_append] at hstep
      cases hstep with
      | wrB =>
        exact raceInv_cast (RaceInv.bWrites (d ++ [c]) r2 (by simp [h]))
          (by simp [flushProg])
  | bDone =>
    simp only [flushProg] at hstep
    cases hstep with
    | acqA => exact raceInv_cast (RaceInv.aAfterB [] ca (by simp)) (by simp [flushProg])
  | aAfterB d r h =>
    cases r with
    | nil =>
      simp only [List.map_nil, List.nil_append] at hstep
      cases hstep with
      | relA => exact raceInv_cast RaceInv.baDone (by simp [h])
    | cons c r2 =>
      simp only [List.map_cons, List.cons_append] at hstep
      cases hstep with
      | wrA =>
        exact raceInv_cast (RaceInv.aAfterB (d ++ [c]) r2 (by simp [h])) (by simp)
  | baDone => cases hstep

theorem raceInv_reach (init ca cb : List Char) (s : Sys)
    (h : Reach ⟨none, init, flushProg ca, flushProg cb⟩ s) :
    RaceInv init ca cb s := by
  induction h with
  | refl => exact RaceInv.start
  | tail hr hs ih => exact raceInv_step init ca cb _ _ ih hs

theorem raceInv_final (init ca cb : List Char) (s : Sys)
    (hInv : RaceInv init ca cb s) (ha : s.pa = []) (hb : s.pb = []) :
    s.file = init ++ ca ++ cb ∨ s.file = init ++ cb ++ ca := by
  cases hInv with
  | start => simp [flushProg] at ha
  | aWrites d r h => simp at ha
  | aDone => simp [flushProg] at hb
  | bAfterA d r h => simp at hb
  | abDone => exact Or.inl rfl
  | bWrites d r h => simp [flushProg] at ha
  | bDone => simp [flushProg] at ha
  | aAfterB d r h => simp at ha
  | baDone => exact Or.inr rfl

theorem reach_head {s t u : Sys} (h1 : Step s t) (h2 : Reach t u) : Reach s u := by
  induction h2 with
  | refl => exact Reach.tail (Reach.refl s) h1
  | tail hr hs ih => exact Reach.tail ih hs

theorem reach_trans {s t u : Sys} (h1 : Reach s t) (h2 : Reach t u) : Reach s u := by
  induction h2 with
  | refl => exact h1
  | tail hr hs ih => exact Reach.tail ih hs

theorem runWritesA (cs : List Char) :
    ∀ (l : Option Bool) (f : List Char) (pa pb : List Act),
    Reach ⟨l, f, cs.map Act.wr ++ pa, pb⟩ ⟨l, f ++ cs, pa, pb⟩ := by
  induction cs with
  | nil =>
    intro l f pa pb
    simpa using Reach.refl (⟨l, f, pa, pb⟩ : Sys)
  | cons c cs2 ih =>
    intro l f pa pb
    refine reach_head (Step.wrA l f c (cs2.map Act.wr ++ pa) pb) ?_
    simpa using ih l (f ++ [c]) pa pb

theorem runWritesB (cs : List Char) :
    ∀ (l : Option Bool) (f : List Char) (pa pb : List Act),
    Reach ⟨l, f, pa, cs.map Act.wr ++ pb⟩ ⟨l, f ++ cs, pa, pb⟩ := by
  induction cs with
  | nil =>
    intro l f pa pb
    simpa using Reach.refl (⟨l, f, pa, pb⟩ : Sys)
  | cons c cs2 ih =>
    intro l f pa pb
    refine reach_head (Step.wrB l f c pa (cs2.map Act.wr ++ pb)) ?_
    simpa using ih l (f ++ [c]) pa pb

/-- One fully sequential schedule: thread A flushes completely, then
thread B does. -/
theorem seqReachAB (init ca cb : List Char) :
    Reach ⟨none, init, flushProg ca, flushProg cb⟩ ⟨none, init ++ ca ++ cb, [], []⟩ := by
  refine reach_head (Step.acqA init (ca.map Act.wr ++ [Act.rel]) (flushProg cb)) ?_
  refine reach_trans (runWritesA ca (some false) init [Act.rel] (flushProg cb)) ?_
  refine reach_head (Step.relA (init ++ ca) [] (flushProg cb)) ?_
  refine reach_head (Step.acqB (init ++ ca) [] (cb.map Act.wr ++ [Act.rel])) ?_
  refine reach_trans (runWritesB cb (some true) (init ++ ca) [] [Act.rel]) ?_
  refine reach_head (Step.relB (init ++ ca ++ cb) [] []) ?_
  exact Reach.refl _

/-!
## Claim theorems
-/

theorem calleeCount_replicate (n k cr : Nat) :
    calleeCount (List.replicate n (k, cr)) k = n := by
  induction n with
  | zero => rfl
  | succ n ih =>
    rw [List.replicate_succ]
    show (if (k, cr).1 = k then 1 else 0) + calleeCount (List.replicate n (k, cr)) k
        = n + 1
    rw [if_pos rfl, ih]
    omega

/-- C1 (amended): for every sequence of entry-hook invocations on one
thread, the accumulator maps each identity to its occurrence count reduced
modulo `2^64` (the `unsigned long` width) — hence to exactly its occurrence
count whenever fewer than `2^64` occurrences happened — inserting absent
identities with count 1, never mapping an identity that never occurred, and
never duplicating a key. -/
theorem hook_sequence_frequency (calls : List (Nat × Nat)) (k : Nat) :
    (tallyGet (runHooks calls []) k =
      if calleeCount calls k = 0 then none
      else some (calleeCount calls k % ULONG_MOD)) ∧
    ((runHooks calls []).map Prod.fst).Nodup := by
  constructor
  · rw [tallyGet_runHooks]
    by_cases h : calleeCount calls k = 0 <;> simp [h, tallyGet]
  · exact keys_nodup_runHooks calls [] (by simp)

/-- C1 counterexample: after `2^64` hook invocations with callee identity 1
the accumulator holds count 0 for identity 1, not its occurrence count
`2^64` — the count is the occurrence count modulo `2^64`, not exactly the
occurrence count. -/
theorem hook_sequence_frequency_cex :
    tallyGet (runHooks (List.replicate (2 ^ 64) (1, 0)) []) 1 = some 0 ∧
    calleeCount (List.replicate (2 ^ 64) (1, 0)) 1 = 2 ^ 64 ∧
    (0 : Nat) ≠ 2 ^ 64 := by
  have h1 : ¬((2:Nat) ^ 64 = 0) := by positivity
  refine ⟨?_, calleeCount_replicate _ 1 0, by positivity⟩
  rw [tallyGet_runHooks, calleeCount_replicate, if_neg h1]
  show some ((Option.getD (tallyGet [] 1) 0 + 2 ^ 64) % ULONG_MOD) = some 0
  rw [show tallyGet [] 1 = none from rfl, Option.getD_none, Nat.zero_add]
  rw [show ULONG_MOD = 2 ^ 64 from rfl, Nat.mod_self]

/-- C2: when two threads with non-empty accumulators flush concurrently at
teardown and the sink opens, every interleaving that runs both teardowns to
completion leaves the output file equal to the initial bytes followed by the
two record blocks in one order or the other, each block a sequence of whole
newline-terminated records — so records never interleave within a line and
the file holds only whole records, by mutual exclusion through
`file_mutex`. -/
theorem teardown_race_no_interleaving (init : List Char) (tidA tidB : Nat)
    (mA mB : CallTally) (s : Sys)
    (hA : mA.isEmpty = false) (hB : mB.isEmpty = false)
    (h : Reach ⟨none, init, drainProg true tidA mA, drainProg true tidB mB⟩ s)
    (ha : s.pa = []) (hb : s.pb = []) :
    s.file = init ++ serializeChars (recordsOf tidA mA ++ recordsOf tidB mB) ∨
    s.file = init ++ serializeChars (recordsOf tidB mB ++ recordsOf tidA mA) := by
  have e1 : drainProg true tidA mA
      = flushProg (serializeChars (recordsOf tidA mA)) := by
    simp [drainProg, hA]
  have e2 : drainProg true tidB mB
      = flushProg (serializeChars (recordsOf tidB mB)) := by
    simp [drainProg, hB]
  rw [e1, e2] at h
  have hinv := raceInv_reach init _ _ s h
  rcases raceInv_final init _ _ s hinv ha hb with h2 | h2
  · left
    rw [serializeChars_append, h2]
    exact List.append_assoc _ _ _
  · right
    rw [serializeChars_append, h2]
    exact List.append_assoc _ _ _

/-- C2 witness: a concrete race of two one-entry accumulators, scheduled
sequentially, ends with the two whole record blocks in sequence. -/
theorem teardown_race_no_interleaving_witness :
    (⟨none, [] ++ serializeChars (recordsOf 1 [(4096, 3)])
          ++ serializeChars (recordsOf 2 [(8192, 2)]), [], []⟩ : Sys).file
        = [] ++ serializeChars (recordsOf 1 [(4096, 3)] ++ recordsOf 2 [(8192, 2)]) ∨
    (⟨none, [] ++ serializeChars (recordsOf 1 [(4096, 3)])
          ++ serializeChars (recordsOf 2 [(8192, 2)]), [], []⟩ : Sys).file
        = [] ++ serializeChars (recordsOf 2 [(8192, 2)] ++ recordsOf 1 [(4096, 3)]) :=
  teardown_race_no_interleaving [] 1 2 [(4096, 3)] [(8192, 2)] _ rfl rfl
    (seqReachAB [] _ _) rfl rfl

/-- C3: a teardown whose accumulator is empty — in particular after zero
hook invocations — leaves the output file unchanged, emits no record, and
never calls `fopen`. -/
theorem empty_tally_teardown_no_io (openOk : Bool) (tid : Nat) (m : CallTally)
    (file : List String) (h : m.isEmpty = true) :
    drain openOk tid m file = (file, false) := by
  simp [drain, h]

/-- C3 witness: the accumulator of a thread that ran no hooks is empty and
its teardown is a no-op that never opens the sink. -/
theorem empty_tally_teardown_no_io_witness :
    drain true 7 (runHooks [] []) ["0x1 2 3"] = (["0x1 2 3"], false) :=
  empty_tally_teardown_no_io true 7 (runHooks [] []) ["0x1 2 3"] rfl

/-- C4: when the append `fopen` fails at teardown, the flush is dropped:
the file is unchanged, teardown still returns, and the counts accumulated
in memory are exactly those accumulated when the sink is writable. -/
theorem sink_open_failure_best_effort (tid : Nat) (calls : List (Nat × Nat))
    (file : List String) :
    (threadLife false tid calls file).2.1 = file ∧
    (threadLife false tid calls file).1 = (threadLife true tid calls file).1 := by
  constructor
  · show (drain false tid (runHooks calls []) file).1 = file
    by_cases h : (runHooks calls []).isEmpty = true <;> simp [drain, h]
  · rfl

/-- C5: process initialization truncates the selected output file to empty
whatever its prior content; when the truncating open fails, initialization
still completes, changes nothing, and selects the same path. -/
theorem constructor_truncates (env : Option String) (fs : String → List String) :
    (cc_constructor env true fs).2 (cc_constructor env true fs).1 = [] ∧
    (cc_constructor env false fs).2 = fs ∧
    (cc_constructor env false fs).1 = (cc_constructor env true fs).1 := by
  refine ⟨?_, rfl, rfl⟩
  cases env with
  | none => simp [cc_constructor]
  | some e => simp [cc_constructor]

/-- C6: a teardown with a non-empty accumulator and a successful open
appends exactly one record line per accumulator entry — the line
`<function_identity> <call_count> <thread_tag>` — and nothing else, every
appended line carrying the same thread tag. -/
theorem nonempty_flush_records (tid : Nat) (m : CallTally) (file : List String)
    (h : m.isEmpty = false) :
    (drain true tid m file).1 = file ++ m.map (fun e => recordLine e.1 e.2 tid) ∧
    (drain true tid m file).2 = true ∧
    (m.map (fun e => recordLine e.1 e.2 tid)).length = m.length ∧
    ∀ l ∈ m.map (fun e => recordLine e.1 e.2 tid),
      ∃ k v, (k, v) ∈ m ∧
        l = formatPtr k ++ " " ++ toString v ++ " " ++ toString tid := by
  refine ⟨?_, ?_, List.length_map _ _, ?_⟩
  · simp [drain, h, recordsOf]
  · simp [drain, h]
  · intro l hl
    rw [List.mem_map] at hl
    obtain ⟨e, he, hel⟩ := hl
    refine ⟨e.1, e.2, by simpa using he, ?_⟩
    rw [← hel]
    rfl

/-- C6 witness: a two-entry accumulator flushes as exactly its two record
lines, both tagged with thread tag 5. -/
theorem nonempty_flush_records_witness :
    (drain true 5 [(4096, 2), (8192, 1)] ([] : List String)).1
        = [] ++ [((4096:Nat), (2:Nat)), (8192, 1)].map (fun e => recordLine e.1 e.2 5) ∧
    (drain true 5 [(4096, 2), (8192, 1)] ([] : List String)).2 = true ∧
    ([((4096:Nat), (2:Nat)), (8192, 1)].map (fun e => recordLine e.1 e.2 5)).length
        = [((4096:Nat), (2:Nat)), (8192, 1)].length ∧
    ∀ l ∈ [((4096:Nat), (2:Nat)), (8192, 1)].map (fun e => recordLine e.1 e.2 5),
      ∃ k v, (k, v) ∈ [((4096:Nat), (2:Nat)), (8192, 1)] ∧
        l = formatPtr k ++ " " ++ toString v ++ " " ++ toString 5 :=
  nonempty_flush_records 5 [(4096, 2), (8192, 1)] [] rfl

theorem cc_constructor_other (env : Option String) (truncOk : Bool)
    (fs : String → List String) (p : String)
    (hp : p ≠ (cc_constructor env truncOk fs).1) :
    (cc_constructor env truncOk fs).2 p = fs p := by
  cases truncOk
  · rfl
  · exact if_neg hp

/-- C7: the output path is fixed at process start — the environment override
when present, the default `"callcounter.raw"` otherwise — and a whole run
(truncation at start, appends at teardown) touches no other path. -/
theorem outfile_selected_once (env : Option String) (truncOk appendOk : Bool)
    (tid : Nat) (calls : List (Nat × Nat)) (fs : String → List String) :
    (processRun env truncOk appendOk tid calls fs).1
        = (match env with
           | some e => e
           | none => defaultOutfile) ∧
    ∀ p, p ≠ (processRun env truncOk appendOk tid calls fs).1 →
      (processRun env truncOk appendOk tid calls fs).2 p = fs p := by
  constructor
  · cases env <;> cases truncOk <;> rfl
  · intro p hp
    have hp2 : p ≠ (cc_constructor env truncOk fs).1 := hp
    show (if p = (cc_constructor env truncOk fs).1
        then (drain appendOk tid (runHooks calls [])
            ((cc_constructor env truncOk fs).2 (cc_constructor env truncOk fs).1)).1
        else (cc_constructor env truncOk fs).2 p) = fs p
    rw [if_neg hp2]
    exact cc_constructor_other env truncOk fs p hp2

/-- C7 witness: with `CC_OUTFILE=a.raw`, the run selects path `"a.raw"` and
leaves a different path `"b"` untouched. -/
theorem outfile_selected_once_witness :
    (processRun (some "a.raw") true true 1 [] (fun _ => ["x"])).1 = "a.raw" ∧
    (processRun (some "a.raw") true true 1 [] (fun _ => ["x"])).2 "b" = ["x"] :=
  ⟨(outfile_selected_once (some "a.raw") true true 1 [] (fun _ => ["x"])).1,
   (outfile_selected_once (some "a.raw") true true 1 [] (fun _ => ["x"])).2 "b"
     (by decide)⟩

/-- C8: the entry hook's caller argument is unused — two hook runs from the
same accumulator with the same callee and different callers produce the same
accumulator. -/
theorem caller_argument_unused (func c1 c2 : Nat) (m : CallTally) :
    funcEnter func c1 m = funcEnter func c2 m := rfl

/-- C9: a null callee identity (the pointer 0) goes through the entry hook
unvalidated as an ordinary key: the hook (a total function — it never fails
or rejects) performs exactly the generic bump, and the null identity's count
accumulates exactly like any other key's. -/
theorem null_callee_ordinary_key (caller : Nat) (m : CallTally) :
    funcEnter 0 caller m = bump m 0 ∧
    tallyGet (funcEnter 0 caller m) 0
      = some (((tallyGet m 0).getD 0 + 1) % ULONG_MOD) :=
  ⟨rfl, tallyGet_bump_self m 0⟩

/-- C10: counts live in the fixed-width `unsigned long`: one more hook
invocation on an identity whose count is `2^64 - 1` wraps the count to 0. -/
theorem counter_wraparound (m : CallTally) (k caller : Nat)
    (h : tallyGet m k = some (ULONG_MOD - 1)) :
    tallyGet (funcEnter k caller m) k = some 0 := by
  rw [show funcEnter k caller m = bump m k from rfl, tallyGet_bump_self, h]
  rw [Option.getD_some, Nat.sub_add_cancel (by decide : 1 ≤ ULONG_MOD),
    Nat.mod_self]

/-- C10 witness: a key stored at the maximum `unsigned long` value wraps to
0 on the next hook invocation. -/
theorem counter_wraparound_witness :
    tallyGet (funcEnter 3 0 [(3, ULONG_MOD - 1)]) 3 = some 0 :=
  counter_wraparound [(3, ULONG_MOD - 1)] 3 0 (by decide)
